import Mathlib

/-!
Postfix expression parser and evaluator (`go/handout-01`)

A shallow embedding of `parser.go` and `eval.go`, followed by theorems about
`Parse` and `Evaluate`.

Modelling conventions.

* A Go call either returns or stops with a runtime panic; `Outcome` records which.
* A Go `(T, error)` result is a pair whose second component is `none` for a nil
  error.  A returned nil `Node` is `none`.
* Go strings are modelled by Lean strings (valid UTF-8 text), so that
  `strings.Split(in, "")` yields the one-character strings of the input in order.
* Go `int` is the 64-bit two's-complement integer: results of `+ - * /` are
  reduced into `[-2^63, 2^63)` by `wrapInt`.
* The errors built with `fmt.Errorf` are kept as structured values carrying the
  data that is formatted into the message.
-/

namespace Handout01

/-! ## Runtime outcomes -/

/-- Runtime panics that the two source files can raise. -/
inductive Panic where
  /-- Raised by `(*s)[len(*s)-1]` in `Stack.pop` when the stack is empty. -/
  | indexOutOfRange : Panic
  /-- Raised by `l / r` when `r` is zero. -/
  | integerDivideByZero : Panic
  /-- Raised by `panic(fmt.Sprintf("unknown operator %q", n.Op))`. -/
  | unknownOperator : Fin 256 → Panic
  deriving DecidableEq

/-- Result of running a Go function: a normal return or a panic. -/
inductive Outcome (α : Type) where
  | returned : α → Outcome α
  | panicked : Panic → Outcome α
  deriving DecidableEq

/-! ## parser.go -/

/-- Go `type Value string`. -/
abbrev Value := String

/-- Go `type Operator byte`. -/
abbrev Operator := Fin 256

/-- Constant `Plus Operator = '+'`. -/
def Plus : Operator := ⟨43, by decide⟩
/-- Constant `Minus Operator = '-'`. -/
def Minus : Operator := ⟨45, by decide⟩
/-- Constant `Multiply Operator = '*'`. -/
def Multiply : Operator := ⟨42, by decide⟩
/-- Constant `Divide Operator = '/'`. -/
def Divide : Operator := ⟨47, by decide⟩
/-- Constant `End Operator = '$'`. -/
def End : Operator := ⟨36, by decide⟩

/-- Conversion `string(op)` of a byte-sized integer: the text of that code point. -/
def Operator.toStr (op : Operator) : String := String.singleton (Char.ofNat op.val)

/-- Conversion `Operator(word[0])`: the first byte of `word`.  It is only applied
to the one-character ASCII words `+ - * /`, whose first byte is the code of the
character. -/
def Operator.ofWord (word : String) : Operator := Fin.ofNat (word.get 0).toNat

/-- AST node of a postfix expression: the two implementations of the Go
interface `Node`, `Value` and `Operation` (fields `Left`, `Right`, `Op`). -/
inductive Node where
  | Value : Value → Node
  | Operation : Node → Node → Operator → Node
  deriving DecidableEq

/-- Methods `Value.String` and `Operation.String`; the latter is
`fmt.Sprintf("(%s %s %s)", op.Left, op.Right, string(op.Op))`. -/
def Node.String : Node → String
  | .Value v => v
  | .Operation l r op =>
    "(" ++ Node.String l ++ " " ++ Node.String r ++ " " ++ Operator.toStr op ++ ")"

/-- Go `type Stack[T any] []T`; the top of the stack is the last element. -/
abbrev Stack (T : Type) := List T

/-- Method `pop`: the last element and the remaining slice.  `none` stands for the
index-out-of-range panic of `(*s)[len(*s)-1]` on an empty stack. -/
def Stack.pop {T : Type} (s : Stack T) : Option (T × Stack T) :=
  match s.getLast? with
  | none => none
  | some v => some (v, s.dropLast)

/-- Method `push`: `append(*s, v)`. -/
def Stack.push {T : Type} (s : Stack T) (v : T) : Stack T := s ++ [v]

/-- Errors built by `fmt.Errorf` in the two files. -/
inductive Error where
  /-- Built by `fmt.Errorf("invalid expression %v", stack)`. -/
  | invalidExpression : Stack Node → Error
  /-- Built by `fmt.Errorf("unknown variable %q", n)`. -/
  | unknownVariable : Value → Error
  deriving DecidableEq

/-- Call `strings.Split(in, "")`: the input cut into one-character strings. -/
def split (input : String) : List String := input.data.map String.singleton

/-- The labelled `for _, word := range words` loop of `Parse`, started on `stack`:
the stack when the loop is left (by `break loop` or at the end of the words), or
the panic of a `pop`. -/
def scan : List String → Stack Node → Outcome (Stack Node)
  | [], stack => .returned stack
  | word :: words, stack =>
    if word = "+" ∨ word = "-" ∨ word = "*" ∨ word = "/" then
      match Stack.pop stack with
      | none => .panicked .indexOutOfRange
      | some (r, stack1) =>
        match Stack.pop stack1 with
        | none => .panicked .indexOutOfRange
        | some (l, stack2) =>
          scan words (Stack.push stack2 (.Operation l r (Operator.ofWord word)))
    else if word = "$" then .returned stack
    else scan words (Stack.push stack (.Value word))

/-- Function `Parse`. -/
def Parse (input : String) : Outcome (Option Node × Option Error) :=
  match scan (split input) [] with
  | .panicked p => .panicked p
  | .returned stack =>
    if h : stack.length ≠ 1 then .returned (none, some (.invalidExpression stack))
    else .returned (some (stack.get ⟨0, by omega⟩), none)

/-! ## eval.go -/

/-- Go `map[Value]int`, as its lookup function (`v, ok := variables[n]`). -/
abbrev Variables := Value → Option Int

/-- Reduction of a mathematical integer to the 64-bit `int` with the same
residue modulo `2^64`. -/
def wrapInt (x : Int) : Int := (x + 2 ^ 63) % 2 ^ 64 - 2 ^ 63

/-- Go `l + r` on `int`. -/
def intAdd (l r : Int) : Int := wrapInt (l + r)
/-- Go `l - r` on `int`. -/
def intSub (l r : Int) : Int := wrapInt (l - r)
/-- Go `l * r` on `int`. -/
def intMul (l r : Int) : Int := wrapInt (l * r)
/-- Go `l / r` on `int` for `r ≠ 0`: the quotient truncated toward zero. -/
def intQuo (l r : Int) : Int := wrapInt (Int.tdiv l r)

/-- Method `evaluator.eval`.  The receiver field `e.variables` is the first
argument; the receiver field `e.err` is threaded through: `err` is its value on
entry and the second component of the result its value on exit.  The first
`match` is the guard `if e.err != nil`, the second the type switch on the node
(the left operand is evaluated in the branch where `e.err` is nil). -/
def eval (vars : Variables) (n : Node) (err : Option Error) :
    Outcome (Int × Option Error) :=
  match err with
  | some e => .returned (0, some e)
  | none =>
    match n with
    | .Value n =>
      match vars n with
      | some v => .returned (v, none)
      | none => .returned (0, some (.unknownVariable n))
    | .Operation left right op =>
      match eval vars left none with
      | .panicked p => .panicked p
      | .returned (l, err1) =>
        match eval vars right err1 with
        | .panicked p => .panicked p
        | .returned (r, err2) =>
          if op = Plus then .returned (intAdd l r, err2)
          else if op = Minus then .returned (intSub l r, err2)
          else if op = Multiply then .returned (intMul l r, err2)
          else if op = Divide then
            if r = 0 then .panicked .integerDivideByZero
            else .returned (intQuo l r, err2)
          else .panicked (.unknownOperator op)

/-- Function `Evaluate`: a fresh evaluator with a nil `err`, one call of `eval`,
and the pair of its result and the final `e.err`. -/
def Evaluate (ast : Node) (vars : Variables) : Outcome (Int × Option Error) :=
  eval vars ast none

/-- The bindings used by `doExpr` in `main.go`. -/
def demoVariables : Variables := fun n =>
  if n = "a" then some 5
  else if n = "b" then some 7
  else if n = "c" then some 2
  else if n = "d" then some 4
  else none

/-! ## Notions used to state the properties -/

/-- The word is one of the operator tokens `+ - * /` (the first `case` of the
`switch word` in `Parse`). -/
def IsOperatorWord (word : String) : Prop :=
  word = "+" ∨ word = "-" ∨ word = "*" ∨ word = "/"

instance (word : String) : Decidable (IsOperatorWord word) :=
  inferInstanceAs (Decidable (word = "+" ∨ word = "-" ∨ word = "*" ∨ word = "/"))

/-- The operator is one of `Plus`, `Minus`, `Multiply`, `Divide`. -/
def IsArith (op : Operator) : Prop :=
  op = Plus ∨ op = Minus ∨ op = Multiply ∨ op = Divide

instance (op : Operator) : Decidable (IsArith op) :=
  inferInstanceAs (Decidable (op = Plus ∨ op = Minus ∨ op = Multiply ∨ op = Divide))

/-- Postfix serialization of a tree: left subtree, right subtree, operator
character; a `Value` is its name. -/
def serialize : Node → String
  | .Value v => v
  | .Operation l r op => serialize l ++ serialize r ++ Operator.toStr op

/-- Trees whose `Value` leaves are single characters other than `+ - * / $` and
whose operators are among `+ - * /`. -/
def Node.Serializable : Node → Prop
  | .Value v => v.length = 1 ∧ ¬ IsOperatorWord v ∧ v ≠ "$"
  | .Operation l r op => IsArith op ∧ Node.Serializable l ∧ Node.Serializable r

instance Node.decSerializable : (t : Node) → Decidable t.Serializable
  | .Value v => inferInstanceAs (Decidable (v.length = 1 ∧ ¬ IsOperatorWord v ∧ v ≠ "$"))
  | .Operation l r op =>
    have := Node.decSerializable l
    have := Node.decSerializable r
    inferInstanceAs (Decidable (IsArith op ∧ Node.Serializable l ∧ Node.Serializable r))

/-- Number of `Value` leaves of a tree. -/
def Node.leaves : Node → Nat
  | .Value _ => 1
  | .Operation l r _ => Node.leaves l + Node.leaves r

/-- Number of `Operation` nodes of a tree. -/
def Node.operations : Node → Nat
  | .Value _ => 0
  | .Operation l r _ => Node.operations l + Node.operations r + 1

/-- An operator token is reached, before any `$`, while fewer than two nodes are
on a parse stack that held `depth` nodes at the start of the words. -/
def underflows : List String → Nat → Bool
  | [], _ => false
  | word :: words, depth =>
    if IsOperatorWord word then
      if depth < 2 then true else underflows words (depth - 1)
    else if word = "$" then false
    else underflows words (depth + 1)

/-- The tokens of the input before the first `$`, or all of them if there is none. -/
def tokens (input : String) : List String :=
  (split input).takeWhile (fun word => decide (word ≠ "$"))

/-- Number of operand tokens among the words. -/
def countOperands (words : List String) : Nat :=
  words.countP (fun word => decide (¬ IsOperatorWord word))

/-- Number of operator tokens among the words. -/
def countOperators (words : List String) : Nat :=
  words.countP (fun word => decide (IsOperatorWord word))

/-- Total number of `Value` leaves of the trees on a stack. -/
def totalLeaves (stack : Stack Node) : Nat := (stack.map Node.leaves).sum

/-- Total number of `Operation` nodes of the trees on a stack. -/
def totalOperations (stack : Stack Node) : Nat := (stack.map Node.operations).sum

/-- The tree `(a (b b -) /)`: its right subtree has value 0 under `demoVariables`. -/
def zeroDivisorTree : Node :=
  .Operation (.Value "a") (.Operation (.Value "b") (.Value "b") Minus) Divide

/-- The tree `(a x /)`: `x` is absent from `demoVariables`. -/
def absentDivisorTree : Node := .Operation (.Value "a") (.Value "x") Divide

/-- The tree `(b x +)`: `x` is absent from `demoVariables`. -/
def absentSummandTree : Node := .Operation (.Value "b") (.Value "x") Plus

/-- The tree `((a b +) (c d *) +)` of the first case of `TestParse`. -/
def testTree0 : Node :=
  .Operation (.Operation (.Value "a") (.Value "b") Plus)
    (.Operation (.Value "c") (.Value "d") Multiply) Plus
/-- The tree `(a (b (c d +) +) +)` of the second case of `TestParse`. -/
def testTree1 : Node :=
  .Operation (.Value "a")
    (.Operation (.Value "b") (.Operation (.Value "c") (.Value "d") Plus) Plus) Plus
/-- The tree `(a (b (c d *) -) *)` of the third case of `TestParse`. -/
def testTree2 : Node :=
  .Operation (.Value "a")
    (.Operation (.Value "b") (.Operation (.Value "c") (.Value "d") Multiply) Minus) Multiply

/-- Every operator of the tree is one of `+ - * /`. -/
def Node.OpsArith : Node → Prop
  | .Value _ => True
  | .Operation l r op => IsArith op ∧ Node.OpsArith l ∧ Node.OpsArith r

instance Node.decOpsArith : (t : Node) → Decidable t.OpsArith
  | .Value _ => inferInstanceAs (Decidable True)
  | .Operation l r op =>
    have := Node.decOpsArith l
    have := Node.decOpsArith r
    inferInstanceAs (Decidable (IsArith op ∧ Node.OpsArith l ∧ Node.OpsArith r))

/-- Every `Value` leaf of the tree is present in the bindings. -/
def Node.Bound (vars : Variables) : Node → Prop
  | .Value n => vars n ≠ none
  | .Operation l r _ => Node.Bound vars l ∧ Node.Bound vars r

instance Node.decBound (vars : Variables) : (t : Node) → Decidable (t.Bound vars)
  | .Value n => inferInstanceAs (Decidable (vars n ≠ none))
  | .Operation l r _ =>
    have := Node.decBound vars l
    have := Node.decBound vars r
    inferInstanceAs (Decidable (Node.Bound vars l ∧ Node.Bound vars r))

/-- The value of a tree as the specification defines it, by recursion: a `Value`
is its bound integer (0 when it has none), and an `Operation` is the value of
the left subtree combined with the value of the right subtree by the `int`
operation of its operator. -/
def value (vars : Variables) : Node → Int
  | .Value n => (vars n).getD 0
  | .Operation l r op =>
    if op = Plus then intAdd (value vars l) (value vars r)
    else if op = Minus then intSub (value vars l) (value vars r)
    else if op = Multiply then intMul (value vars l) (value vars r)
    else intQuo (value vars l) (value vars r)

/-- The value of a tree over the mathematical integers: addition, subtraction,
multiplication and division truncated toward zero, without reduction to 64 bits. -/
def mathValue (vars : Variables) : Node → Int
  | .Value n => (vars n).getD 0
  | .Operation l r op =>
    if op = Plus then mathValue vars l + mathValue vars r
    else if op = Minus then mathValue vars l - mathValue vars r
    else if op = Multiply then mathValue vars l * mathValue vars r
    else Int.tdiv (mathValue vars l) (mathValue vars r)

/-- The integer is representable as a 64-bit `int`. -/
def IsInt64 (x : Int) : Prop := -2 ^ 63 ≤ x ∧ x < 2 ^ 63

instance (x : Int) : Decidable (IsInt64 x) :=
  inferInstanceAs (Decidable (-2 ^ 63 ≤ x ∧ x < 2 ^ 63))

/-- The mathematical value of every subtree is representable as a 64-bit `int`. -/
def Fits (vars : Variables) : Node → Prop
  | .Value n => IsInt64 ((vars n).getD 0)
  | .Operation l r op =>
    Fits vars l ∧ Fits vars r ∧ IsInt64 (mathValue vars (.Operation l r op))

instance decFits (vars : Variables) : (t : Node) → Decidable (Fits vars t)
  | .Value n => inferInstanceAs (Decidable (IsInt64 ((vars n).getD 0)))
  | .Operation l r op =>
    have := decFits vars l
    have := decFits vars r
    inferInstanceAs
      (Decidable (Fits vars l ∧ Fits vars r ∧ IsInt64 (mathValue vars (.Operation l r op))))

/-- No `Divide` node of the tree has a right subtree of value 0. -/
def NoZeroDivisor (vars : Variables) : Node → Prop
  | .Value _ => True
  | .Operation l r op =>
    NoZeroDivisor vars l ∧ NoZeroDivisor vars r ∧ (op = Divide → value vars r ≠ 0)

instance decNoZeroDivisor (vars : Variables) : (t : Node) → Decidable (NoZeroDivisor vars t)
  | .Value _ => inferInstanceAs (Decidable True)
  | .Operation l r op =>
    have := decNoZeroDivisor vars l
    have := decNoZeroDivisor vars r
    inferInstanceAs (Decidable
      (NoZeroDivisor vars l ∧ NoZeroDivisor vars r ∧ (op = Divide → value vars r ≠ 0)))

/-- No `Divide` node whose two subtrees are fully bound has a right subtree of
value 0. -/
def NoBoundZeroDivisor (vars : Variables) : Node → Prop
  | .Value _ => True
  | .Operation l r op =>
    NoBoundZeroDivisor vars l ∧ NoBoundZeroDivisor vars r
      ∧ (op = Divide → Node.Bound vars l → Node.Bound vars r → value vars r ≠ 0)

instance decNoBoundZeroDivisor (vars : Variables) :
    (t : Node) → Decidable (NoBoundZeroDivisor vars t)
  | .Value _ => inferInstanceAs (Decidable True)
  | .Operation l r op =>
    have := decNoBoundZeroDivisor vars l
    have := decNoBoundZeroDivisor vars r
    inferInstanceAs (Decidable
      (NoBoundZeroDivisor vars l ∧ NoBoundZeroDivisor vars r
        ∧ (op = Divide → Node.Bound vars l → Node.Bound vars r → value vars r ≠ 0)))

/-- The first `Value` of the tree, in left-to-right leaf order, that is absent
from the bindings. -/
def firstAbsent (vars : Variables) : Node → Option Value
  | .Value n => if vars n = none then some n else none
  | .Operation l r _ =>
    match firstAbsent vars l with
    | some n => some n
    | none => firstAbsent vars r

/-- The names of the `Value` leaves of a tree, read left to right. -/
def leafNames : Node → List Value
  | .Value v => [v]
  | .Operation l r _ => leafNames l ++ leafNames r

/-- The leaf names of the trees on a stack, from the bottom of the stack to its top. -/
def stackLeafNames : Stack Node → List Value
  | [] => []
  | n :: stack => leafNames n ++ stackLeafNames stack

/-- The operand tokens among the words, in order. -/
def operandWords (words : List String) : List String :=
  words.filter (fun word => decide (¬ IsOperatorWord word))

/-- The serializations of the trees on a stack, from the bottom to the top, as
one text. -/
def stackText : Stack Node → String
  | [] => ""
  | n :: stack => serialize n ++ stackText stack

/-- The words written one after the other. -/
def concatWords : List String → String
  | [] => ""
  | word :: words => word ++ concatWords words

/-- The characters of the input before its first `$`, or all of them if it has
none. -/
def beforeEnd (input : String) : String :=
  String.mk (input.data.takeWhile (fun c => decide (c ≠ '$')))

/-- Every operator of the tree is one of `+ - *`: the tree has no `Divide` node
and no unknown operator. -/
def Node.OpsNoDivide : Node → Prop
  | .Value _ => True
  | .Operation l r op =>
    (op = Plus ∨ op = Minus ∨ op = Multiply) ∧ Node.OpsNoDivide l ∧ Node.OpsNoDivide r

instance Node.decOpsNoDivide : (t : Node) → Decidable t.OpsNoDivide
  | .Value _ => inferInstanceAs (Decidable True)
  | .Operation l r op =>
    have := Node.decOpsNoDivide l
    have := Node.decOpsNoDivide r
    inferInstanceAs (Decidable
      ((op = Plus ∨ op = Minus ∨ op = Multiply) ∧ Node.OpsNoDivide l ∧ Node.OpsNoDivide r))

/-- The most negative 64-bit `int`. -/
def minInt : Int := -2 ^ 63

/-- Bindings with negative and extreme values: m is the minimum `int`, n is -1,
p is -5 and q is 2. -/
def extremeVariables : Variables := fun name =>
  if name = "m" then some minInt
  else if name = "n" then some (-1)
  else if name = "p" then some (-5)
  else if name = "q" then some 2
  else none

/-- The tree `((x a +) (y b *) -)`: `x` and `y` are absent from `demoVariables`. -/
def twoAbsentTree : Node :=
  .Operation (.Operation (.Value "x") (.Value "a") Plus)
    (.Operation (.Value "y") (.Value "b") Multiply) Minus

/-! ## Lemmas on the stack and the scan -/

theorem pop_push {T : Type} (s : Stack T) (v : T) :
    Stack.pop (Stack.push s v) = some (v, s) := by
  simp [Stack.pop, Stack.push]

theorem pop_nil {T : Type} : Stack.pop ([] : Stack T) = none := rfl

theorem pop_concat {T : Type} (s : List T) (v : T) :
    Stack.pop (s ++ [v] : Stack T) = some (v, s) := pop_push s v

theorem split_append (a b : String) : split (a ++ b) = split a ++ split b := by
  simp [split, String.data_append]

theorem split_of_length_one (v : String) (h : v.length = 1) : split v = [v] := by
  obtain ⟨d⟩ := v
  match d, h with
  | [c], _ => rfl

theorem split_toStr (op : Operator) : split (Operator.toStr op) = [Operator.toStr op] := rfl

theorem toStr_isOperatorWord (op : Operator) (h : IsArith op) :
    IsOperatorWord (Operator.toStr op) ∧ Operator.ofWord (Operator.toStr op) = op := by
  rcases h with h | h | h | h <;> subst h <;> decide

theorem scan_operand (word : String) (words : List String) (stack : Stack Node)
    (h1 : ¬ IsOperatorWord word) (h2 : word ≠ "$") :
    scan (word :: words) stack = scan words (stack ++ [.Value word]) := by
  unfold IsOperatorWord at h1
  rw [scan, if_neg h1, if_neg h2]
  rfl

theorem scan_end (words : List String) (stack : Stack Node) :
    scan ("$" :: words) stack = .returned stack := by
  rw [scan, if_neg (by decide), if_pos rfl]

theorem scan_operator (word : String) (words : List String) (stack : Stack Node)
    (l r : Node) (h : IsOperatorWord word) :
    scan (word :: words) (stack ++ [l] ++ [r])
      = scan words (stack ++ [.Operation l r (Operator.ofWord word)]) := by
  unfold IsOperatorWord at h
  rw [scan, if_pos h, pop_concat]
  simp only [pop_concat]
  rfl

theorem scan_operator_underflow (word : String) (words : List String) (stack : Stack Node)
    (h : IsOperatorWord word) (hlen : stack.length < 2) :
    scan (word :: words) stack = .panicked .indexOutOfRange := by
  unfold IsOperatorWord at h
  rw [scan, if_pos h]
  match stack, hlen with
  | [], _ => rfl
  | [_], _ => rfl

/-- Scanning the serialization of a tree pushes exactly that tree. -/
theorem scan_serialize (t : Node) (h : t.Serializable) (words : List String)
    (stack : Stack Node) :
    scan (split (serialize t) ++ words) stack = scan words (stack ++ [t]) := by
  induction t generalizing words stack with
  | Value v =>
    obtain ⟨hlen, hop, hend⟩ := h
    show scan (split v ++ words) stack = _
    rw [split_of_length_one v hlen]
    exact scan_operand v words stack hop hend
  | Operation l r op ihl ihr =>
    obtain ⟨hop, hl, hr⟩ := h
    show scan (split (serialize l ++ serialize r ++ Operator.toStr op) ++ words) stack = _
    rw [split_append, split_append, List.append_assoc, List.append_assoc, ihl hl, ihr hr,
      split_toStr]
    have hw := toStr_isOperatorWord op hop
    show scan (Operator.toStr op :: words) (stack ++ [l] ++ [r]) = _
    rw [scan_operator _ _ _ _ _ hw.1, hw.2]

theorem stack_cases (stack : Stack Node) :
    stack.length < 2 ∨ ∃ s l r, stack = s ++ [l] ++ [r] := by
  rcases List.eq_nil_or_concat stack with h | ⟨s1, r, h⟩
  · left; rw [h]; decide
  · rcases List.eq_nil_or_concat s1 with h1 | ⟨s, l, h1⟩
    · left; rw [h, h1]; simp
    · right; exact ⟨s, l, r, by rw [h, h1, List.concat_eq_append, List.concat_eq_append]⟩

theorem singleton_eq_end (c : Char) : String.singleton c = "$" ↔ c = '$' := by
  constructor
  · intro h
    have h2 : (String.singleton c).data = "$".data := by rw [h]
    simpa [String.singleton] using h2
  · intro h; subst h; rfl

theorem end_not_mem_split (s : String) (h : '$' ∉ s.data) : "$" ∉ split s := by
  intro hm
  obtain ⟨c, hc, hcs⟩ := List.mem_map.1 hm
  exact h ((singleton_eq_end c).1 hcs ▸ hc)

/-- Words after a `$` do not influence the scan. -/
theorem scan_append_end (words rest : List String) (stack : Stack Node)
    (h : "$" ∉ words) : scan (words ++ "$" :: rest) stack = scan words stack := by
  induction words generalizing stack with
  | nil => exact scan_end rest stack
  | cons w ws ih =>
    have hw : w ≠ "$" := fun e => h (e ▸ List.mem_cons_self _ _)
    have hws : "$" ∉ ws := fun e => h (List.mem_cons_of_mem _ e)
    rw [List.cons_append]
    by_cases hop : IsOperatorWord w
    · rcases stack_cases stack with hlen | ⟨s, l, r, rfl⟩
      · rw [scan_operator_underflow _ _ _ hop hlen, scan_operator_underflow _ _ _ hop hlen]
      · rw [scan_operator _ _ _ _ _ hop, scan_operator _ _ _ _ _ hop, ih _ hws]
    · rw [scan_operand _ _ _ hop hw, scan_operand _ _ _ hop hw, ih _ hws]

/-- An operator reached on fewer than two nodes makes the scan panic. -/
theorem scan_underflows (words : List String) (stack : Stack Node)
    (h : underflows words stack.length = true) :
    scan words stack = .panicked .indexOutOfRange := by
  induction words generalizing stack with
  | nil => simp [underflows] at h
  | cons w ws ih =>
    by_cases hop : IsOperatorWord w
    · rcases stack_cases stack with hlen | ⟨s, l, r, rfl⟩
      · exact scan_operator_underflow _ _ _ hop hlen
      · rw [scan_operator _ _ _ _ _ hop]
        apply ih
        rw [underflows, if_pos hop, if_neg (by simp)] at h
        simpa using h
    · by_cases hw : w = "$"
      · rw [underflows, if_neg hop, if_pos hw] at h
        exact absurd h (by decide)
      · rw [scan_operand _ _ _ hop hw]
        apply ih
        rw [underflows, if_neg hop, if_neg hw] at h
        simpa using h

theorem totalLeaves_concat (stack : Stack Node) (n : Node) :
    totalLeaves (stack ++ [n]) = totalLeaves stack + n.leaves := by
  simp [totalLeaves]

theorem totalOperations_concat (stack : Stack Node) (n : Node) :
    totalOperations (stack ++ [n]) = totalOperations stack + n.operations := by
  simp [totalOperations]

theorem takeWhile_cons_ne (w : String) (ws : List String) (hw : w ≠ "$") :
    (w :: ws).takeWhile (fun x => decide (x ≠ "$"))
      = w :: ws.takeWhile (fun x => decide (x ≠ "$")) := by
  rw [List.takeWhile_cons, if_pos (by simpa using hw)]

theorem takeWhile_cons_end (ws : List String) :
    ("$" :: ws).takeWhile (fun x => decide (x ≠ "$")) = [] := by
  rw [List.takeWhile_cons, if_neg (by simp)]

theorem count_cons_operator (w : String) (ws : List String) (h : IsOperatorWord w) :
    countOperands (w :: ws) = countOperands ws
      ∧ countOperators (w :: ws) = countOperators ws + 1 := by
  simp [countOperands, countOperators, h]

theorem count_cons_operand (w : String) (ws : List String) (h : ¬ IsOperatorWord w) :
    countOperands (w :: ws) = countOperands ws + 1
      ∧ countOperators (w :: ws) = countOperators ws := by
  simp [countOperands, countOperators, h]

/-- Without underflow the scan returns a stack, and the numbers of nodes on it
are accounted for by the operand and operator tokens before the first `$`. -/
theorem scan_counts (words : List String) (stack : Stack Node)
    (h : underflows words stack.length = false) :
    ∃ final, scan words stack = .returned final
      ∧ final.length + countOperators (words.takeWhile (fun w => decide (w ≠ "$")))
          = stack.length + countOperands (words.takeWhile (fun w => decide (w ≠ "$")))
      ∧ totalLeaves final
          = totalLeaves stack + countOperands (words.takeWhile (fun w => decide (w ≠ "$")))
      ∧ totalOperations final
          = totalOperations stack
            + countOperators (words.takeWhile (fun w => decide (w ≠ "$"))) := by
  induction words generalizing stack with
  | nil => exact ⟨stack, rfl, rfl, rfl, rfl⟩
  | cons w ws ih =>
    by_cases hop : IsOperatorWord w
    · have hw : w ≠ "$" := by rintro rfl; revert hop; decide
      rcases stack_cases stack with hlen | ⟨s, l, r, rfl⟩
      · rw [underflows, if_pos hop, if_pos hlen] at h
        exact absurd h (by decide)
      · rw [underflows, if_pos hop, if_neg (by simp)] at h
        obtain ⟨final, hs, h1, h2, h3⟩ :=
          ih (s ++ [.Operation l r (Operator.ofWord w)]) (by simpa using h)
        obtain ⟨c1, c2⟩ := count_cons_operator w
          (ws.takeWhile (fun x => decide (x ≠ "$"))) hop
        refine ⟨final, ?_, ?_, ?_, ?_⟩
        · rw [scan_operator _ _ _ _ _ hop, hs]
        · rw [takeWhile_cons_ne w ws hw, c1, c2]
          simp only [List.length_append, List.length_singleton] at h1 ⊢
          omega
        · rw [takeWhile_cons_ne w ws hw, c1]
          simp only [totalLeaves_concat, Node.leaves] at h2 ⊢
          omega
        · rw [takeWhile_cons_ne w ws hw, c2]
          simp only [totalOperations_concat, Node.operations] at h3 ⊢
          omega
    · by_cases hw : w = "$"
      · subst hw
        rw [takeWhile_cons_end]
        exact ⟨stack, scan_end ws stack, rfl, rfl, rfl⟩
      · rw [underflows, if_neg hop, if_neg hw] at h
        obtain ⟨final, hs, h1, h2, h3⟩ := ih (stack ++ [.Value w]) (by simpa using h)
        obtain ⟨c1, c2⟩ := count_cons_operand w
          (ws.takeWhile (fun x => decide (x ≠ "$"))) hop
        refine ⟨final, ?_, ?_, ?_, ?_⟩
        · rw [scan_operand _ _ _ hop hw, hs]
        · rw [takeWhile_cons_ne w ws hw, c1, c2]
          simp only [List.length_append, List.length_singleton] at h1 ⊢
          omega
        · rw [takeWhile_cons_ne w ws hw, c1]
          simp only [totalLeaves_concat, Node.leaves] at h2 ⊢
          omega
        · rw [takeWhile_cons_ne w ws hw, c2]
          simp only [totalOperations_concat, Node.operations] at h3 ⊢
          omega

/-! ## Theorems on `Parse` -/

/-- Claim C1.  `Parse` undoes postfix serialization: for every tree whose leaves
are single characters other than `+ - * / $` and whose operators are among
`+ - * /`, parsing its postfix serialization followed by `$` returns exactly
that tree with a nil error (so the rendering of the result is the rendering of
the tree). -/
theorem Parse_serialize (t : Node) (h : t.Serializable) :
    Parse (serialize t ++ "$") = .returned (some t, none) := by
  have hs : scan (split (serialize t ++ "$")) [] = .returned [t] := by
    rw [split_append, scan_serialize t h]
    exact scan_end [] _
  unfold Parse
  rw [hs]
  rfl

/-- The three cases of `TestParse` as instances of `Parse_serialize`. -/
theorem Parse_serialize_witness :
    (testTree0.Serializable ∧ serialize testTree0 ++ "$" = "ab+cd*+$"
      ∧ Parse "ab+cd*+$" = .returned (some testTree0, none)
      ∧ testTree0.String = "((a b +) (c d *) +)")
    ∧ (testTree1.Serializable ∧ serialize testTree1 ++ "$" = "abcd+++$"
      ∧ Parse "abcd+++$" = .returned (some testTree1, none)
      ∧ testTree1.String = "(a (b (c d +) +) +)")
    ∧ (testTree2.Serializable ∧ serialize testTree2 ++ "$" = "abcd*-*$"
      ∧ Parse "abcd*-*$" = .returned (some testTree2, none)
      ∧ testTree2.String = "(a (b (c d *) -) *)") :=
  ⟨⟨by decide, by decide, Parse_serialize testTree0 (by decide), by decide⟩,
   ⟨by decide, by decide, Parse_serialize testTree1 (by decide), by decide⟩,
   ⟨by decide, by decide, Parse_serialize testTree2 (by decide), by decide⟩⟩

/-- Claim C3 (what the code does).  On the inputs `+`, `a+` and `+ab` an
operator token is reached with fewer than two nodes on the stack, and `Parse`
does not return the invalid-expression error: the `pop` on the empty stack
panics with an index out of range. -/
theorem Parse_underflow_panics :
    (underflows (split "+") 0 = true ∧ Parse "+" = .panicked .indexOutOfRange)
    ∧ (underflows (split "a+") 0 = true ∧ Parse "a+" = .panicked .indexOutOfRange)
    ∧ (underflows (split "+ab") 0 = true ∧ Parse "+ab" = .panicked .indexOutOfRange) := by
  decide

/-- Every input on which an operator token is reached with fewer than two nodes
on the stack makes `Parse` panic. -/
theorem Parse_of_underflows (input : String) (h : underflows (split input) 0 = true) :
    Parse input = .panicked .indexOutOfRange := by
  unfold Parse
  rw [scan_underflows (split input) [] h]

/-- Claim C8.  The terminator stops the scan: for every string `s` without `$`
and every string `t`, `Parse (s ++ "$" ++ t)` is the same outcome as `Parse s`
(same tree, same error or same panic); in particular a `$` at the end is the
same as none. -/
theorem Parse_terminator (s t : String) (h : '$' ∉ s.data) :
    Parse (s ++ "$" ++ t) = Parse s ∧ Parse (s ++ "$") = Parse s := by
  have key : ∀ rest : List String, scan (split s ++ "$" :: rest) [] = scan (split s) [] :=
    fun rest => scan_append_end (split s) rest [] (end_not_mem_split s h)
  constructor
  · unfold Parse
    rw [split_append, split_append, List.append_assoc]
    show (match scan (split s ++ "$" :: split t) [] with
      | .panicked p => Outcome.panicked p
      | .returned stack => _) = _
    rw [key]
  · unfold Parse
    rw [split_append]
    show (match scan (split s ++ "$" :: []) [] with
      | .panicked p => Outcome.panicked p
      | .returned stack => _) = _
    rw [key]

/-- Instances of `Parse_terminator`: a tree, an error and a panic are each kept
when a `$` and further text are appended. -/
theorem Parse_terminator_witness :
    ('$' ∉ "ab+".data ∧ Parse ("ab+" ++ "$" ++ "cd-") = Parse "ab+"
      ∧ Parse "ab+" = .returned (some (.Operation (.Value "a") (.Value "b") Plus), none))
    ∧ ('$' ∉ "ab".data ∧ Parse ("ab" ++ "$" ++ "+") = Parse "ab"
      ∧ Parse "ab" = .returned (none, some (.invalidExpression [.Value "a", .Value "b"])))
    ∧ ('$' ∉ "a+".data ∧ Parse ("a+" ++ "$" ++ "b$") = Parse "a+"
      ∧ Parse "a+" = .panicked .indexOutOfRange) :=
  ⟨⟨by decide, (Parse_terminator "ab+" "cd-" (by decide)).1, by decide⟩,
   ⟨by decide, (Parse_terminator "ab" "+" (by decide)).1, by decide⟩,
   ⟨by decide, (Parse_terminator "a+" "b$" (by decide)).1, by decide⟩⟩

/-- Claim C9.  For every input in which no operator is reached with fewer than
two nodes on the stack, the scan returns a stack; `Parse` returns no node and
the invalid-expression error (built from that stack) when the stack does not
hold exactly one node, and returns the single node with a nil error when it
does. -/
theorem Parse_final_stack (input : String) (h : underflows (split input) 0 = false) :
    ∃ stack, scan (split input) [] = .returned stack
      ∧ ((∃ e, Parse input = .returned (none, some e)) ↔ stack.length ≠ 1)
      ∧ (stack.length ≠ 1 →
          Parse input = .returned (none, some (.invalidExpression stack)))
      ∧ (∀ n, stack = [n] → Parse input = .returned (some n, none)) := by
  obtain ⟨stack, hs, -⟩ := scan_counts (split input) [] h
  have hfail : stack.length ≠ 1 →
      Parse input = .returned (none, some (.invalidExpression stack)) := by
    intro hlen
    unfold Parse
    rw [hs]
    exact dif_pos hlen
  have hone : ∀ n, stack = [n] → Parse input = .returned (some n, none) := by
    intro n hn
    subst hn
    unfold Parse
    rw [hs]
    rfl
  refine ⟨stack, hs, ⟨?_, fun hlen => ⟨_, hfail hlen⟩⟩, hfail, hone⟩
  rintro ⟨e, he⟩ hlen
  match stack, hlen with
  | [n], _ =>
    rw [hone n rfl] at he
    cases he

/-- Instances of `Parse_final_stack`: `Parse ""` and `Parse "ab$"` fail with the
invalid-expression error, `Parse "ab+$"` returns its single node. -/
theorem Parse_final_stack_witness :
    (underflows (split "") 0 = false
      ∧ ∃ stack, scan (split "") [] = .returned stack
        ∧ ((∃ e, Parse "" = .returned (none, some e)) ↔ stack.length ≠ 1)
        ∧ (stack.length ≠ 1 → Parse "" = .returned (none, some (.invalidExpression stack)))
        ∧ (∀ n, stack = [n] → Parse "" = .returned (some n, none)))
    ∧ (underflows (split "ab$") 0 = false
      ∧ ∃ stack, scan (split "ab$") [] = .returned stack
        ∧ ((∃ e, Parse "ab$" = .returned (none, some e)) ↔ stack.length ≠ 1)
        ∧ (stack.length ≠ 1 → Parse "ab$" = .returned (none, some (.invalidExpression stack)))
        ∧ (∀ n, stack = [n] → Parse "ab$" = .returned (some n, none)))
    ∧ Parse "" = .returned (none, some (.invalidExpression []))
    ∧ Parse "ab$" = .returned (none, some (.invalidExpression [.Value "a", .Value "b"]))
    ∧ Parse "ab+$" = .returned (some (.Operation (.Value "a") (.Value "b") Plus), none) :=
  ⟨⟨by decide, Parse_final_stack "" (by decide)⟩,
   ⟨by decide, Parse_final_stack "ab$" (by decide)⟩,
   by decide, by decide, by decide⟩

/-- Claim C10.  For every input whose tokens before the first `$` (or the end)
are `N` operands and `N - 1` operators, `N ≥ 1`, with no operator reached on
fewer than two nodes, `Parse` succeeds and the returned tree has exactly `N`
`Value` leaves and `N - 1` `Operation` nodes. -/
theorem Parse_leaves (input : String) (N : Nat) (hN : 1 ≤ N)
    (hoperands : countOperands (tokens input) = N)
    (hoperators : countOperators (tokens input) = N - 1)
    (h : underflows (split input) 0 = false) :
    ∃ t, Parse input = .returned (some t, none) ∧ t.leaves = N ∧ t.operations = N - 1 := by
  obtain ⟨stack, hs, h1, h2, h3⟩ := scan_counts (split input) [] h
  unfold tokens at hoperands hoperators
  rw [hoperands, hoperators] at h1
  rw [hoperands] at h2
  rw [hoperators] at h3
  have hlen : stack.length = 1 := by
    simp only [List.length_nil] at h1
    omega
  match stack, hlen with
  | [t], _ =>
    refine ⟨t, ?_, ?_, ?_⟩
    · unfold Parse
      rw [hs]
      rfl
    · simpa [totalLeaves] using h2
    · simpa [totalOperations] using h3

/-- Instance of `Parse_leaves`: `abcd*-*$ab` has four operands and three
operators before its `$`. -/
theorem Parse_leaves_witness :
    1 ≤ 4 ∧ countOperands (tokens "abcd*-*$ab") = 4
      ∧ countOperators (tokens "abcd*-*$ab") = 4 - 1
      ∧ underflows (split "abcd*-*$ab") 0 = false
      ∧ ∃ t, Parse "abcd*-*$ab" = .returned (some t, none) ∧ t.leaves = 4
          ∧ t.operations = 4 - 1 :=
  ⟨by decide, by decide, by decide, by decide,
   Parse_leaves "abcd*-*$ab" 4 (by decide) (by decide) (by decide) (by decide)⟩

/-! ## Theorems on `Evaluate` -/

theorem eval_some (vars : Variables) (n : Node) (e : Error) :
    eval vars n (some e) = .returned (0, some e) := by
  cases n <;> rfl

theorem eval_Value_none (vars : Variables) (name : Value) :
    eval vars (.Value name) none
      = match vars name with
        | some v => .returned (v, none)
        | none => .returned (0, some (.unknownVariable name)) := by
  rw [eval]

theorem eval_Operation_none (vars : Variables) (left right : Node) (op : Operator) :
    eval vars (.Operation left right op) none
      = match eval vars left none with
        | .panicked p => .panicked p
        | .returned (l, err1) =>
          match eval vars right err1 with
          | .panicked p => .panicked p
          | .returned (r, err2) =>
            if op = Plus then .returned (intAdd l r, err2)
            else if op = Minus then .returned (intSub l r, err2)
            else if op = Multiply then .returned (intMul l r, err2)
            else if op = Divide then
              if r = 0 then .panicked .integerDivideByZero
              else .returned (intQuo l r, err2)
            else .panicked (.unknownOperator op) := by
  rw [eval]

theorem wrapInt_of_isInt64 (x : Int) (h : IsInt64 x) : wrapInt x = x := by
  obtain ⟨h1, h2⟩ := h
  unfold wrapInt
  rw [Int.emod_eq_of_lt (by omega) (by omega)]
  omega

theorem value_eq_mathValue (vars : Variables) (t : Node) (h : Fits vars t) :
    value vars t = mathValue vars t := by
  induction t with
  | Value n => rfl
  | Operation l r op ihl ihr =>
    obtain ⟨hl, hr, hfit⟩ := h
    have el := ihl hl
    have er := ihr hr
    unfold mathValue at hfit
    unfold value mathValue
    rw [el, er]
    by_cases h1 : op = Plus
    · rw [if_pos h1] at hfit ⊢
      rw [if_pos h1]
      exact wrapInt_of_isInt64 _ hfit
    · rw [if_neg h1] at hfit ⊢
      rw [if_neg h1]
      by_cases h2 : op = Minus
      · rw [if_pos h2] at hfit ⊢
        rw [if_pos h2]
        exact wrapInt_of_isInt64 _ hfit
      · rw [if_neg h2] at hfit ⊢
        rw [if_neg h2]
        by_cases h3 : op = Multiply
        · rw [if_pos h3] at hfit ⊢
          rw [if_pos h3]
          exact wrapInt_of_isInt64 _ hfit
        · rw [if_neg h3] at hfit ⊢
          rw [if_neg h3]
          exact wrapInt_of_isInt64 _ hfit

/-- On a fully bound tree with operators among `+ - * /` and no zero divisor,
`eval` entered with a nil error returns the value and leaves the error nil. -/
theorem eval_value (vars : Variables) (t : Node) (hops : t.OpsArith)
    (hbound : t.Bound vars) (hdiv : NoZeroDivisor vars t) :
    eval vars t none = .returned (value vars t, none) := by
  induction t with
  | Value n =>
    have hb : vars n ≠ none := hbound
    rw [eval_Value_none]
    unfold value
    cases hv : vars n with
    | none => exact absurd hv hb
    | some v => rfl
  | Operation l r op ihl ihr =>
    obtain ⟨hop, hol, hor⟩ := hops
    obtain ⟨hbl, hbr⟩ := hbound
    obtain ⟨hdl, hdr, hz⟩ := hdiv
    rw [eval_Operation_none]
    unfold value
    simp only [ihl hol hbl hdl, ihr hor hbr hdr]
    rcases hop with h | h | h | h
    · subst h; rfl
    · subst h; rfl
    · subst h; rfl
    · subst h
      have hne : value vars r ≠ 0 := hz rfl
      simp [hne, Divide, Plus, Minus, Multiply]

/-- Claim C2.  For every tree whose operators are among `+ - * /`, whose leaves
are all bound and in which no `Divide` node has a right subtree of value 0,
`Evaluate` returns a nil error and the value defined by recursion on the tree
(a `Value` is its bound integer; an `Operation` combines the values of its
subtrees with `+`, `-`, `*`, `/` on `int`); that value is the one computed over
the mathematical integers whenever every intermediate result fits in 64 bits. -/
theorem Evaluate_value (t : Node) (vars : Variables) (hops : t.OpsArith)
    (hbound : t.Bound vars) (hdiv : NoZeroDivisor vars t) :
    Evaluate t vars = .returned (value vars t, none)
      ∧ (Fits vars t → value vars t = mathValue vars t) :=
  ⟨eval_value vars t hops hbound hdiv, value_eq_mathValue vars t⟩

/-- Instances of `Evaluate_value` with the bindings a:5, b:7, c:2, d:4: the tree
of `ab+cd*+$` evaluates to 20 and the tree of `abcd*-*$` to -5. -/
theorem Evaluate_value_witness :
    (testTree0.OpsArith ∧ testTree0.Bound demoVariables
      ∧ NoZeroDivisor demoVariables testTree0
      ∧ Parse "ab+cd*+$" = .returned (some testTree0, none)
      ∧ Evaluate testTree0 demoVariables = .returned (20, none)
      ∧ mathValue demoVariables testTree0 = 20)
    ∧ (testTree2.OpsArith ∧ testTree2.Bound demoVariables
      ∧ NoZeroDivisor demoVariables testTree2
      ∧ Parse "abcd*-*$" = .returned (some testTree2, none)
      ∧ Evaluate testTree2 demoVariables = .returned (-5, none)
      ∧ mathValue demoVariables testTree2 = -5) :=
  ⟨⟨by decide, by decide, by decide, by decide,
    (Evaluate_value testTree0 demoVariables (by decide) (by decide) (by decide)).1,
    by decide⟩,
   ⟨by decide, by decide, by decide, by decide,
    (Evaluate_value testTree2 demoVariables (by decide) (by decide) (by decide)).1,
    by decide⟩⟩

/-- Claim C4 (counterexample).  In `(a (b b -) /)` with a:5, b:7 both subtrees
evaluate without error and the right one to 0, yet `Evaluate` returns no error
at all: the division panics. -/
theorem Evaluate_divide_zero_counterexample :
    Evaluate (.Value "a") demoVariables = .returned (5, none)
    ∧ Evaluate (.Operation (.Value "b") (.Value "b") Minus) demoVariables
        = .returned (0, none)
    ∧ Evaluate zeroDivisorTree demoVariables = .panicked .integerDivideByZero
    ∧ ¬ ∃ v e, Evaluate zeroDivisorTree demoVariables = .returned (v, some e) := by
  refine ⟨by decide, by decide, by decide, ?_⟩
  rintro ⟨v, e, h⟩
  have hp : Evaluate zeroDivisorTree demoVariables = .panicked .integerDivideByZero := by
    decide
  rw [hp] at h
  cases h

/-- Claim C4 (amended).  For every `Operation` with operator `/` whose subtrees
evaluate without error and whose right subtree evaluates to 0, `Evaluate` does
not return: the division panics with an integer divide by zero. -/
theorem Evaluate_divide_zero (l r : Node) (vars : Variables) (lv : Int)
    (hl : Evaluate l vars = .returned (lv, none))
    (hr : Evaluate r vars = .returned (0, none)) :
    Evaluate (.Operation l r Divide) vars = .panicked .integerDivideByZero := by
  unfold Evaluate at hl hr ⊢
  rw [eval_Operation_none]
  simp only [hl, hr]
  rw [if_neg (by decide), if_neg (by decide), if_neg (by decide)]
  rfl

/-- Instance of `Evaluate_divide_zero` on `(a (b b -) /)`. -/
theorem Evaluate_divide_zero_witness :
    Evaluate (.Value "a") demoVariables = .returned (5, none)
    ∧ Evaluate (.Operation (.Value "b") (.Value "b") Minus) demoVariables
        = .returned (0, none)
    ∧ Evaluate (.Operation (.Value "a") (.Operation (.Value "b") (.Value "b") Minus) Divide)
        demoVariables = .panicked .integerDivideByZero :=
  ⟨by decide, by decide,
   Evaluate_divide_zero (.Value "a") (.Operation (.Value "b") (.Value "b") Minus)
     demoVariables 5 (by decide) (by decide)⟩

/-- Claim C5 (what the code does).  The tree `(a x /)` with a:5 and `x` absent
meets the conditions of the claim (operators among `+ - * /`, first absent
`Value` is `x`, no `Divide` node with two fully bound subtrees), but `Evaluate`
does not return the unknown-variable error: `eval` yields the placeholder 0 for
`x` and the division by it panics.  The same happens on `(x a /)`. -/
theorem Evaluate_absent_divisor_panics :
    absentDivisorTree.OpsArith
    ∧ firstAbsent demoVariables absentDivisorTree = some "x"
    ∧ NoBoundZeroDivisor demoVariables absentDivisorTree
    ∧ Evaluate absentDivisorTree demoVariables = .panicked .integerDivideByZero
    ∧ Evaluate (.Operation (.Value "x") (.Value "a") Divide) demoVariables
        = .panicked .integerDivideByZero := by
  decide

/-- Claim C6.  `Evaluate` on a single `Value` node: if the name is bound, the
bound integer is returned with a nil error; if it is absent, the result is the
unknown-variable error carrying that name (with the integer 0). -/
theorem Evaluate_single_Value (name : Value) (vars : Variables) :
    (∀ v, vars name = some v → Evaluate (.Value name) vars = .returned (v, none))
    ∧ (vars name = none →
        Evaluate (.Value name) vars = .returned (0, some (.unknownVariable name))) := by
  constructor
  · intro v hv
    unfold Evaluate
    rw [eval_Value_none, hv]
  · intro hv
    unfold Evaluate
    rw [eval_Value_none, hv]

/-- Instances of `Evaluate_single_Value`: `a` is bound to 5 and `x` is absent. -/
theorem Evaluate_single_Value_witness :
    (demoVariables "a" = some 5
      ∧ Evaluate (.Value "a") demoVariables = .returned (5, none))
    ∧ (demoVariables "x" = none
      ∧ Evaluate (.Value "x") demoVariables = .returned (0, some (.unknownVariable "x"))) :=
  ⟨⟨by decide, (Evaluate_single_Value "a" demoVariables).1 5 (by decide)⟩,
   ⟨by decide, (Evaluate_single_Value "x" demoVariables).2 (by decide)⟩⟩

/-- Claim C7 (what the code does).  On `(b x +)` with b:7 and `x` absent,
`Evaluate` returns the unknown-variable error together with the integer 7, the
sum of the left value and the placeholder 0, not 0. -/
theorem Evaluate_partial_value :
    Evaluate absentSummandTree demoVariables = .returned (7, some (.unknownVariable "x")) := by
  decide

/-! ## Rendering -/

/-- Claim C11.  Rendering shape: `String` of a `Value` is its bare name, and
`String` of an `Operation` is `(`, the rendering of the left child, a blank, the
rendering of the right child, a blank, the operator character and `)`; the
operator characters of `Plus`, `Minus`, `Multiply`, `Divide` are `+ - * /`.  The
tree `Operation(+, Operation(+, a, b), Operation(*, c, d))` renders as
`((a b +) (c d *) +)`. -/
theorem String_shape :
    (∀ v : Value, Node.String (.Value v) = v)
    ∧ (∀ (l r : Node) (op : Operator),
        Node.String (.Operation l r op)
          = "(" ++ Node.String l ++ " " ++ Node.String r ++ " "
              ++ String.singleton (Char.ofNat op.val) ++ ")")
    ∧ (String.singleton (Char.ofNat Plus.val) = "+"
        ∧ String.singleton (Char.ofNat Minus.val) = "-"
        ∧ String.singleton (Char.ofNat Multiply.val) = "*"
        ∧ String.singleton (Char.ofNat Divide.val) = "/")
    ∧ Node.String
        (.Operation (.Operation (.Value "a") (.Value "b") Plus)
          (.Operation (.Value "c") (.Value "d") Multiply) Plus)
        = "((a b +) (c d *) +)" :=
  ⟨fun _ => rfl, fun _ _ _ => rfl, by decide, by decide⟩

/-! ## Invariants of the trees that `Parse` builds -/

theorem ofWord_isArith (word : String) (h : IsOperatorWord word) :
    IsArith (Operator.ofWord word) ∧ Operator.toStr (Operator.ofWord word) = word := by
  rcases h with h | h | h | h <;> subst h <;> decide

/-- The scan keeps the operators of the trees on the stack among `+ - * /`. -/
theorem scan_opsArith (words : List String) (stack final : Stack Node)
    (hs : scan words stack = .returned final) (h : ∀ n ∈ stack, Node.OpsArith n) :
    ∀ n ∈ final, Node.OpsArith n := by
  induction words generalizing stack with
  | nil =>
    cases hs
    exact h
  | cons w ws ih =>
    by_cases hop : IsOperatorWord w
    · rcases stack_cases stack with hlen | ⟨s, l, r, rfl⟩
      · rw [scan_operator_underflow _ _ _ hop hlen] at hs
        cases hs
      · rw [scan_operator _ _ _ _ _ hop] at hs
        refine ih _ hs ?_
        intro n hn
        rcases List.mem_append.1 hn with hn | hn
        · exact h n (by simp [hn])
        · rw [List.mem_singleton] at hn
          subst hn
          exact ⟨(ofWord_isArith w hop).1, h l (by simp), h r (by simp)⟩
    · by_cases hw : w = "$"
      · subst hw
        rw [scan_end] at hs
        cases hs
        exact h
      · rw [scan_operand _ _ _ hop hw] at hs
        refine ih _ hs ?_
        intro n hn
        rcases List.mem_append.1 hn with hn | hn
        · exact h n hn
        · rw [List.mem_singleton] at hn
          subst hn
          exact True.intro

/-- A successful `Parse` returns the single node of the final stack. -/
theorem Parse_returned (input : String) (t : Node)
    (h : Parse input = .returned (some t, none)) : scan (split input) [] = .returned [t] := by
  unfold Parse at h
  cases hs : scan (split input) [] with
  | panicked p => rw [hs] at h; cases h
  | returned stack =>
    rw [hs] at h
    by_cases hlen : stack.length ≠ 1
    · simp only [dif_pos hlen] at h
      cases h
    · obtain ⟨n, rfl⟩ := List.length_eq_one.1 (not_not.1 hlen)
      simp at h
      rw [h]

theorem eval_Operation_of (vars : Variables) (l r : Node) (op : Operator) (lv rv : Int)
    (e1 e2 : Option Error) (h1 : eval vars l none = .returned (lv, e1))
    (h2 : eval vars r e1 = .returned (rv, e2)) :
    eval vars (.Operation l r op) none
      = if op = Plus then .returned (intAdd lv rv, e2)
        else if op = Minus then .returned (intSub lv rv, e2)
        else if op = Multiply then .returned (intMul lv rv, e2)
        else if op = Divide then
          if rv = 0 then .panicked .integerDivideByZero
          else .returned (intQuo lv rv, e2)
        else .panicked (.unknownOperator op) := by
  rw [eval_Operation_none]
  simp only [h1, h2]

theorem eval_Operation_left_panicked (vars : Variables) (l r : Node) (op : Operator)
    (p : Panic) (h1 : eval vars l none = .panicked p) :
    eval vars (.Operation l r op) none = .panicked p := by
  rw [eval_Operation_none]
  simp only [h1]

theorem eval_Operation_right_panicked (vars : Variables) (l r : Node) (op : Operator)
    (lv : Int) (e1 : Option Error) (p : Panic) (h1 : eval vars l none = .returned (lv, e1))
    (h2 : eval vars r e1 = .panicked p) :
    eval vars (.Operation l r op) none = .panicked p := by
  rw [eval_Operation_none]
  simp only [h1, h2]

/-- With operators among `+ - * /`, `eval` returns or panics on a division by
zero: it never panics on an unknown operator. -/
theorem eval_no_unknownOperator (vars : Variables) (t : Node) (h : t.OpsArith)
    (err : Option Error) :
    (∃ res, eval vars t err = .returned res)
      ∨ eval vars t err = .panicked .integerDivideByZero := by
  induction t generalizing err with
  | Value n =>
    cases err with
    | some e => exact Or.inl ⟨_, eval_some vars _ e⟩
    | none =>
      rw [eval_Value_none]
      cases vars n <;> exact Or.inl ⟨_, rfl⟩
  | Operation l r op ihl ihr =>
    obtain ⟨hop, hl, hr⟩ := h
    cases err with
    | some e => exact Or.inl ⟨_, eval_some vars _ e⟩
    | none =>
      rcases ihl hl none with ⟨⟨lv, e1⟩, h1⟩ | h1
      · rcases ihr hr e1 with ⟨⟨rv, e2⟩, h2⟩ | h2
        · rw [eval_Operation_of vars l r op lv rv e1 e2 h1 h2]
          rcases hop with h | h | h | h
          · subst h; exact Or.inl ⟨_, rfl⟩
          · subst h; exact Or.inl ⟨_, rfl⟩
          · subst h; exact Or.inl ⟨_, rfl⟩
          · subst h
            rw [if_neg (by decide), if_neg (by decide), if_neg (by decide), if_pos rfl]
            by_cases hz : rv = 0
            · rw [if_pos hz]; exact Or.inr rfl
            · rw [if_neg hz]; exact Or.inl ⟨_, rfl⟩
        · rw [eval_Operation_right_panicked vars l r op lv e1 _ h1 h2]; exact Or.inr rfl
      · rw [eval_Operation_left_panicked vars l r op _ h1]; exact Or.inr rfl

/-- Claim C12.  Every tree that `Parse` returns has an operator among `+ - * /`
at every `Operation` node (its children are `Value` or `Operation` nodes by the
type of trees), and `Evaluate` on it, for any bindings, either returns or panics
on a division by zero: it never panics on an unknown operator. -/
theorem Parse_opsArith (input : String) (t : Node)
    (h : Parse input = .returned (some t, none)) :
    t.OpsArith
      ∧ ∀ vars : Variables,
          ((∃ res, Evaluate t vars = .returned res)
            ∨ Evaluate t vars = .panicked .integerDivideByZero)
          ∧ ∀ op, Evaluate t vars ≠ .panicked (.unknownOperator op) := by
  have hops : t.OpsArith :=
    scan_opsArith (split input) [] [t] (Parse_returned input t h)
      (fun n hn => absurd hn (List.not_mem_nil n)) t (List.mem_singleton.2 rfl)
  refine ⟨hops, fun vars => ?_⟩
  have hev := eval_no_unknownOperator vars t hops none
  refine ⟨hev, fun op hp => ?_⟩
  unfold Evaluate at hp
  rcases hev with ⟨res, hres⟩ | hdz
  · rw [hres] at hp; cases hp
  · rw [hdz] at hp; cases hp

/-- Instance of `Parse_opsArith` on the tree of `ab+cd*+$`. -/
theorem Parse_opsArith_witness :
    Parse "ab+cd*+$" = .returned (some testTree0, none)
    ∧ testTree0.OpsArith
    ∧ ∀ vars : Variables,
        ((∃ res, Evaluate testTree0 vars = .returned res)
          ∨ Evaluate testTree0 vars = .panicked .integerDivideByZero)
        ∧ ∀ op, Evaluate testTree0 vars ≠ .panicked (.unknownOperator op) :=
  ⟨by decide, Parse_opsArith "ab+cd*+$" testTree0 (by decide)⟩

/-! ## Operand order and the inverse of serialization -/

theorem stackLeafNames_append (a b : Stack Node) :
    stackLeafNames (a ++ b) = stackLeafNames a ++ stackLeafNames b := by
  induction a with
  | nil => rfl
  | cons n a ih =>
    show leafNames n ++ stackLeafNames (a ++ b) = leafNames n ++ stackLeafNames a ++ _
    rw [ih, List.append_assoc]

theorem stackLeafNames_singleton (n : Node) : stackLeafNames [n] = leafNames n := by
  show leafNames n ++ [] = _
  rw [List.append_nil]

theorem operandWords_cons_operator (w : String) (ws : List String) (h : IsOperatorWord w) :
    operandWords (w :: ws) = operandWords ws := by
  simp [operandWords, h]

theorem operandWords_cons_operand (w : String) (ws : List String) (h : ¬ IsOperatorWord w) :
    operandWords (w :: ws) = w :: operandWords ws := by
  simp [operandWords, h]

/-- The leaves on the final stack are the leaves on the starting stack followed
by the operand tokens scanned before the first `$`. -/
theorem scan_leafNames (words : List String) (stack final : Stack Node)
    (hs : scan words stack = .returned final) :
    stackLeafNames final
      = stackLeafNames stack
          ++ operandWords (words.takeWhile (fun w => decide (w ≠ "$"))) := by
  induction words generalizing stack with
  | nil =>
    cases hs
    exact (List.append_nil _).symm
  | cons w ws ih =>
    by_cases hop : IsOperatorWord w
    · have hw : w ≠ "$" := by rintro rfl; revert hop; decide
      rcases stack_cases stack with hlen | ⟨s, l, r, rfl⟩
      · rw [scan_operator_underflow _ _ _ hop hlen] at hs
        cases hs
      · rw [scan_operator _ _ _ _ _ hop] at hs
        rw [ih _ hs, takeWhile_cons_ne w ws hw, operandWords_cons_operator _ _ hop]
        simp only [stackLeafNames_append, stackLeafNames_singleton, leafNames,
          List.append_assoc]
    · by_cases hw : w = "$"
      · subst hw
        rw [scan_end] at hs
        cases hs
        rw [takeWhile_cons_end]
        exact (List.append_nil _).symm
      · rw [scan_operand _ _ _ hop hw] at hs
        rw [ih _ hs, takeWhile_cons_ne w ws hw, operandWords_cons_operand _ _ hop]
        simp only [stackLeafNames_append, stackLeafNames_singleton, leafNames,
          List.append_assoc, List.singleton_append]

/-- Claim C13.  Operand order is preserved: for every input on which `Parse`
succeeds, the `Value` leaves of the returned tree read left to right are the
operand tokens of the input before the first `$`, in input order; and at an
operator token the node pushed most recently becomes the right child and the
node pushed before it the left child. -/
theorem Parse_leafNames (input : String) (t : Node)
    (h : Parse input = .returned (some t, none)) :
    leafNames t = operandWords (tokens input)
      ∧ ∀ (word : String) (words : List String) (stack : Stack Node) (l r : Node),
          IsOperatorWord word →
            scan (word :: words) (Stack.push (Stack.push stack l) r)
              = scan words (Stack.push stack (.Operation l r (Operator.ofWord word))) := by
  constructor
  · have hl := scan_leafNames (split input) [] [t] (Parse_returned input t h)
    rw [stackLeafNames_singleton] at hl
    exact hl
  · intro word words stack l r hop
    exact scan_operator word words stack l r hop

/-- Instance of `Parse_leafNames`: `ab-$` parses to `Operation(-, Left a, Right b)`,
whose leaves are `a`, `b`. -/
theorem Parse_leafNames_witness :
    Parse "ab-$" = .returned (some (.Operation (.Value "a") (.Value "b") Minus), none)
    ∧ leafNames (.Operation (.Value "a") (.Value "b") Minus) = ["a", "b"]
    ∧ operandWords (tokens "ab-$") = ["a", "b"]
    ∧ (leafNames (.Operation (.Value "a") (.Value "b") Minus) = operandWords (tokens "ab-$")
      ∧ ∀ (word : String) (words : List String) (stack : Stack Node) (l r : Node),
          IsOperatorWord word →
            scan (word :: words) (Stack.push (Stack.push stack l) r)
              = scan words (Stack.push stack (.Operation l r (Operator.ofWord word)))) :=
  ⟨by decide, by decide, by decide,
   Parse_leafNames "ab-$" (.Operation (.Value "a") (.Value "b") Minus) (by decide)⟩

theorem stackText_append (a b : Stack Node) :
    stackText (a ++ b) = stackText a ++ stackText b := by
  induction a with
  | nil => exact (String.empty_append _).symm
  | cons n a ih =>
    show serialize n ++ stackText (a ++ b) = serialize n ++ stackText a ++ _
    rw [ih, String.append_assoc]

theorem stackText_singleton (n : Node) : stackText [n] = serialize n :=
  String.append_empty _

/-- The text of the final stack is the text of the starting stack followed by
the words scanned before the first `$`. -/
theorem scan_text (words : List String) (stack final : Stack Node)
    (hs : scan words stack = .returned final) :
    stackText final
      = stackText stack ++ concatWords (words.takeWhile (fun w => decide (w ≠ "$"))) := by
  induction words generalizing stack with
  | nil =>
    cases hs
    exact (String.append_empty _).symm
  | cons w ws ih =>
    by_cases hop : IsOperatorWord w
    · have hw : w ≠ "$" := by rintro rfl; revert hop; decide
      rcases stack_cases stack with hlen | ⟨s, l, r, rfl⟩
      · rw [scan_operator_underflow _ _ _ hop hlen] at hs
        cases hs
      · rw [scan_operator _ _ _ _ _ hop] at hs
        rw [ih _ hs, takeWhile_cons_ne w ws hw]
        simp only [stackText_append, stackText_singleton, serialize, concatWords,
          (ofWord_isArith w hop).2, String.append_assoc]
    · by_cases hw : w = "$"
      · subst hw
        rw [scan_end] at hs
        cases hs
        rw [takeWhile_cons_end]
        exact (String.append_empty _).symm
      · rw [scan_operand _ _ _ hop hw] at hs
        rw [ih _ hs, takeWhile_cons_ne w ws hw]
        simp only [stackText_append, stackText_singleton, serialize, concatWords,
          String.append_assoc]

theorem concatWords_split (cs : List Char) :
    concatWords ((cs.map String.singleton).takeWhile (fun w => decide (w ≠ "$")))
      = String.mk (cs.takeWhile (fun c => decide (c ≠ '$'))) := by
  induction cs with
  | nil => rfl
  | cons c cs ih =>
    by_cases hc : c = '$'
    · subst hc
      rfl
    · have hw : String.singleton c ≠ "$" := fun e => hc ((singleton_eq_end c).1 e)
      rw [List.map_cons, takeWhile_cons_ne _ _ hw, List.takeWhile_cons,
        if_pos (by simpa using hc)]
      show String.singleton c ++ concatWords _ = _
      rw [ih]
      rfl

theorem serialize_of_Parse (input : String) (t : Node)
    (h : Parse input = .returned (some t, none)) : serialize t = beforeEnd input := by
  have ht := scan_text (split input) [] [t] (Parse_returned input t h)
  rw [stackText_singleton] at ht
  rw [ht]
  show "" ++ concatWords _ = _
  rw [String.empty_append]
  exact concatWords_split input.data

/-- Claim C15.  For every input on which `Parse` succeeds, the postfix
serialization of the returned tree is the text of the input before its first
`$` (the whole input if it has none); hence two inputs that parse to the same
tree agree up to their first `$`. -/
theorem serialize_Parse (input : String) (t : Node)
    (h : Parse input = .returned (some t, none)) :
    serialize t = beforeEnd input
      ∧ ∀ other : String, Parse other = .returned (some t, none) →
          beforeEnd other = beforeEnd input := by
  refine ⟨serialize_of_Parse input t h, fun other ho => ?_⟩
  rw [← serialize_of_Parse input t h, ← serialize_of_Parse other t ho]

/-- Instance of `serialize_Parse`: `abcd*-*$ab` and `abcd*-*` parse to
the same tree, whose serialization is `abcd*-*`. -/
theorem serialize_Parse_witness :
    Parse "abcd*-*$ab" = .returned (some testTree2, none)
    ∧ Parse "abcd*-*" = .returned (some testTree2, none)
    ∧ beforeEnd "abcd*-*$ab" = "abcd*-*"
    ∧ serialize testTree2 = "abcd*-*"
    ∧ (serialize testTree2 = beforeEnd "abcd*-*$ab"
      ∧ ∀ other : String, Parse other = .returned (some testTree2, none) →
          beforeEnd other = beforeEnd "abcd*-*$ab") :=
  ⟨by decide, by decide, by decide, by decide,
   serialize_Parse "abcd*-*$ab" testTree2 (by decide)⟩

/-! ## The first unknown variable -/

theorem firstAbsent_eq_find (vars : Variables) (t : Node) :
    firstAbsent vars t = (leafNames t).find? (fun n => decide (vars n = none)) := by
  induction t with
  | Value n =>
    show (if vars n = none then some n else none) = _
    by_cases h : vars n = none
    · rw [if_pos h]
      simp [leafNames, List.find?_cons, h]
    · rw [if_neg h]
      simp [leafNames, List.find?_cons, h]
  | Operation l r op ihl ihr =>
    show (match firstAbsent vars l with
      | some n => some n
      | none => firstAbsent vars r) = (leafNames l ++ leafNames r).find? _
    rw [List.find?_append, ← ihl, ← ihr]
    cases firstAbsent vars l <;> rfl

/-- In a tree with operators among `+ - *`, `eval` entered with a nil error
returns, and leaves as error the unknown-variable error of the first absent
`Value` (nil if every `Value` is bound). -/
theorem eval_noDivide (vars : Variables) (t : Node) (h : t.OpsNoDivide) :
    ∃ v, eval vars t none
      = .returned (v, (firstAbsent vars t).map Error.unknownVariable) := by
  induction t with
  | Value n =>
    rw [eval_Value_none]
    show ∃ v, _ = Outcome.returned
      (v, (if vars n = none then some n else none).map Error.unknownVariable)
    cases hv : vars n with
    | none => exact ⟨0, by rw [if_pos rfl]; rfl⟩
    | some x => exact ⟨x, by rw [if_neg (by simp)]; rfl⟩
  | Operation l r op ihl ihr =>
    obtain ⟨hop, hl, hr⟩ := h
    obtain ⟨lv, h1⟩ := ihl hl
    have key : ∃ rv, eval vars r ((firstAbsent vars l).map Error.unknownVariable)
        = .returned (rv, (firstAbsent vars (.Operation l r op)).map Error.unknownVariable) := by
      show ∃ rv, _ = Outcome.returned (rv,
        (match firstAbsent vars l with
          | some n => some n
          | none => firstAbsent vars r).map Error.unknownVariable)
      cases firstAbsent vars l with
      | some x => exact ⟨0, eval_some vars r _⟩
      | none => exact ihr hr
    obtain ⟨rv, h2⟩ := key
    rw [eval_Operation_of vars l r op lv rv _ _ h1 h2]
    rcases hop with h | h | h
    · subst h; exact ⟨_, rfl⟩
    · subst h; exact ⟨_, rfl⟩
    · subst h; exact ⟨_, rfl⟩

/-- Claim C14.  For every tree with operators among `+ - *` (no `Divide` node)
in which `x` is the first `Value`, in left-to-right leaf order, absent from the
bindings, `Evaluate` returns (it does not panic) the unknown-variable error
naming `x`, whatever absent `Value`s follow it. -/
theorem Evaluate_first_absent (t : Node) (vars : Variables) (x : Value)
    (hops : t.OpsNoDivide)
    (habs : (leafNames t).find? (fun n => decide (vars n = none)) = some x) :
    ∃ v, Evaluate t vars = .returned (v, some (.unknownVariable x)) := by
  obtain ⟨v, hv⟩ := eval_noDivide vars t hops
  rw [firstAbsent_eq_find, habs] at hv
  exact ⟨v, hv⟩

/-- Instance of `Evaluate_first_absent`: in `((x a +) (y b *) -)` both `x` and `y`
are absent and the error names `x`. -/
theorem Evaluate_first_absent_witness :
    twoAbsentTree.OpsNoDivide
    ∧ leafNames twoAbsentTree = ["x", "a", "y", "b"]
    ∧ (leafNames twoAbsentTree).find? (fun n => decide (demoVariables n = none)) = some "x"
    ∧ (∃ v, Evaluate twoAbsentTree demoVariables = .returned (v, some (.unknownVariable "x")))
    ∧ Evaluate twoAbsentTree demoVariables = .returned (0, some (.unknownVariable "x")) :=
  ⟨by decide, by decide, by decide,
   Evaluate_first_absent twoAbsentTree demoVariables "x" (by decide) (by decide),
   by decide⟩

/-! ## Arithmetic of `int` -/

theorem wrapInt_isInt64 (x : Int) : IsInt64 (wrapInt x) := by
  unfold IsInt64 wrapInt
  omega

theorem wrapInt_congr (x : Int) : ∃ k : Int, wrapInt x = x + k * 2 ^ 64 :=
  ⟨-((x + 2 ^ 63) / 2 ^ 64), by unfold wrapInt; omega⟩

/-- The remainder of the truncated division is smaller than the divisor in
absolute value and has the sign of the dividend. -/
theorem tmod_sign_bound (a b : Int) (hb : b ≠ 0) :
    (Int.tmod a b).natAbs < b.natAbs ∧ (0 ≤ a → 0 ≤ Int.tmod a b)
      ∧ (a ≤ 0 → Int.tmod a b ≤ 0) := by
  cases a with
  | ofNat m =>
    cases b with
    | ofNat n =>
      have hn : n ≠ 0 := fun e => hb (by rw [e]; rfl)
      have hlt : m % n < n := Nat.mod_lt _ (Nat.pos_of_ne_zero hn)
      show (Int.ofNat (m % n)).natAbs < (Int.ofNat n).natAbs ∧ (_ → 0 ≤ Int.ofNat (m % n))
        ∧ (Int.ofNat m ≤ 0 → Int.ofNat (m % n) ≤ 0)
      simp only [Int.ofNat_eq_coe]
      have hz : m = 0 → m % n = 0 := fun e => by rw [e, Nat.zero_mod]
      omega
    | negSucc n =>
      have hlt : m % (n + 1) < n + 1 := Nat.mod_lt _ (Nat.succ_pos n)
      show (Int.ofNat (m % (n + 1))).natAbs < (Int.negSucc n).natAbs
        ∧ (_ → 0 ≤ Int.ofNat (m % (n + 1)))
        ∧ (Int.ofNat m ≤ 0 → Int.ofNat (m % (n + 1)) ≤ 0)
      simp only [Int.ofNat_eq_coe, Int.negSucc_eq]
      have hz : m = 0 → m % (n + 1) = 0 := fun e => by rw [e, Nat.zero_mod]
      generalize m % (n + 1) = k at hlt hz ⊢
      omega
  | negSucc m =>
    cases b with
    | ofNat n =>
      have hn : n ≠ 0 := fun e => hb (by rw [e]; rfl)
      have hlt : (m + 1) % n < n := Nat.mod_lt _ (Nat.pos_of_ne_zero hn)
      show (-Int.ofNat ((m + 1) % n)).natAbs < (Int.ofNat n).natAbs
        ∧ (_ → 0 ≤ -Int.ofNat ((m + 1) % n))
        ∧ (_ → -Int.ofNat ((m + 1) % n) ≤ 0)
      simp only [Int.ofNat_eq_coe, Int.negSucc_eq]
      generalize (m + 1) % n = k at hlt ⊢
      omega
    | negSucc n =>
      have hlt : (m + 1) % (n + 1) < n + 1 := Nat.mod_lt _ (Nat.succ_pos n)
      show (-Int.ofNat ((m + 1) % (n + 1))).natAbs < (Int.negSucc n).natAbs
        ∧ (_ → 0 ≤ -Int.ofNat ((m + 1) % (n + 1)))
        ∧ (_ → -Int.ofNat ((m + 1) % (n + 1)) ≤ 0)
      simp only [Int.ofNat_eq_coe, Int.negSucc_eq]
      generalize (m + 1) % (n + 1) = k at hlt ⊢
      omega

/-- The truncated quotient of two 64-bit integers is a 64-bit integer, except
for the minimum integer divided by -1. -/
theorem tdiv_isInt64 (a b : Int) (ha : IsInt64 a) (hb : IsInt64 b) (hne : b ≠ 0)
    (hov : ¬ (a = minInt ∧ b = -1)) : IsInt64 (Int.tdiv a b) := by
  unfold IsInt64 minInt at *
  have hq : (Int.tdiv a b).natAbs = a.natAbs / b.natAbs := Int.natAbs_tdiv a b
  by_cases h1 : b = 1
  · subst h1
    rw [Int.tdiv_one]
    exact ha
  · by_cases h2 : b = -1
    · subst h2
      rw [Int.tdiv_neg, Int.tdiv_one]
      omega
    · have h3 : 2 ≤ b.natAbs := by omega
      have h4 : a.natAbs / b.natAbs ≤ a.natAbs / 2 :=
        Nat.div_le_div_left h3 (by decide)
      omega

theorem intQuo_eq_tdiv (a b : Int) (ha : IsInt64 a) (hb : IsInt64 b) (hne : b ≠ 0)
    (hov : ¬ (a = minInt ∧ b = -1)) : intQuo a b = Int.tdiv a b :=
  wrapInt_of_isInt64 _ (tdiv_isInt64 a b ha hb hne hov)

theorem intQuo_minInt : intQuo minInt (-1) = minInt := by decide

/-- Claim C16.  For every `Operation` whose operands evaluate without error to
the 64-bit integers `lv` and `rv`: with operator `/` and `rv ≠ 0`, `Evaluate`
returns (it does not panic) a 64-bit quotient `q` with a nil error; `q` is the
minimum integer when the minimum integer is divided by -1, and otherwise `q` is
the quotient truncated toward zero, i.e. the remainder `lv - q * rv` is smaller
than `rv` in absolute value and has the sign of `lv`.  With operators `+ - *`,
`Evaluate` returns the 64-bit integer congruent modulo `2^64` to the sum,
difference or product. -/
theorem Evaluate_arith (l r : Node) (vars : Variables) (lv rv : Int)
    (hl : Evaluate l vars = .returned (lv, none))
    (hr : Evaluate r vars = .returned (rv, none))
    (hlv : IsInt64 lv) (hrv : IsInt64 rv) :
    (rv ≠ 0 →
      ∃ q, Evaluate (.Operation l r Divide) vars = .returned (q, none)
        ∧ IsInt64 q
        ∧ (lv = minInt ∧ rv = -1 → q = minInt)
        ∧ (¬ (lv = minInt ∧ rv = -1) →
            q = Int.tdiv lv rv
            ∧ (lv - q * rv).natAbs < rv.natAbs
            ∧ (0 ≤ lv → 0 ≤ lv - q * rv)
            ∧ (lv ≤ 0 → lv - q * rv ≤ 0)))
    ∧ (∃ s, Evaluate (.Operation l r Plus) vars = .returned (s, none)
        ∧ IsInt64 s ∧ ∃ k : Int, s = lv + rv + k * 2 ^ 64)
    ∧ (∃ s, Evaluate (.Operation l r Minus) vars = .returned (s, none)
        ∧ IsInt64 s ∧ ∃ k : Int, s = lv - rv + k * 2 ^ 64)
    ∧ (∃ s, Evaluate (.Operation l r Multiply) vars = .returned (s, none)
        ∧ IsInt64 s ∧ ∃ k : Int, s = lv * rv + k * 2 ^ 64) := by
  unfold Evaluate at hl hr ⊢
  refine ⟨fun hne => ⟨intQuo lv rv, ?_, wrapInt_isInt64 _, ?_, ?_⟩,
    ⟨intAdd lv rv, ?_, wrapInt_isInt64 _, wrapInt_congr _⟩,
    ⟨intSub lv rv, ?_, wrapInt_isInt64 _, wrapInt_congr _⟩,
    ⟨intMul lv rv, ?_, wrapInt_isInt64 _, wrapInt_congr _⟩⟩
  · rw [eval_Operation_of vars l r Divide lv rv none none hl hr,
      if_neg (by decide), if_neg (by decide), if_neg (by decide), if_pos rfl, if_neg hne]
  · rintro ⟨h1, h2⟩
    subst h1 h2
    exact intQuo_minInt
  · intro hov
    have hq := intQuo_eq_tdiv lv rv hlv hrv hne hov
    have hrem : lv - intQuo lv rv * rv = Int.tmod lv rv := by
      rw [hq, Int.tmod_def, Int.mul_comm]
    rw [hrem]
    exact ⟨hq, tmod_sign_bound lv rv hne⟩
  · rw [eval_Operation_of vars l r Plus lv rv none none hl hr, if_pos rfl]
  · rw [eval_Operation_of vars l r Minus lv rv none none hl hr,
      if_neg (by decide), if_pos rfl]
  · rw [eval_Operation_of vars l r Multiply lv rv none none hl hr,
      if_neg (by decide), if_neg (by decide), if_pos rfl]

/-- Instances of `Evaluate_arith`: with p:-5, q:2, `(p q /)` evaluates to -2 with
remainder -1; with m the minimum integer and n:-1, `(m n /)` evaluates to the
minimum integer and `(m n +)` wraps to the maximum integer. -/
theorem Evaluate_arith_witness :
    (Evaluate (.Value "p") extremeVariables = .returned (-5, none)
      ∧ Evaluate (.Value "q") extremeVariables = .returned (2, none)
      ∧ IsInt64 (-5) ∧ IsInt64 2 ∧ (2 : Int) ≠ 0
      ∧ Evaluate (.Operation (.Value "p") (.Value "q") Divide) extremeVariables
          = .returned (-2, none)
      ∧ ∃ q, Evaluate (.Operation (.Value "p") (.Value "q") Divide) extremeVariables
            = .returned (q, none)
          ∧ IsInt64 q
          ∧ ((-5 : Int) = minInt ∧ (2 : Int) = -1 → q = minInt)
          ∧ (¬ ((-5 : Int) = minInt ∧ (2 : Int) = -1) →
              q = Int.tdiv (-5) 2
              ∧ (-5 - q * 2).natAbs < (2 : Int).natAbs
              ∧ ((0 : Int) ≤ -5 → 0 ≤ -5 - q * 2)
              ∧ ((-5 : Int) ≤ 0 → -5 - q * 2 ≤ 0)))
    ∧ (Evaluate (.Value "m") extremeVariables = .returned (minInt, none)
      ∧ Evaluate (.Value "n") extremeVariables = .returned (-1, none)
      ∧ IsInt64 minInt ∧ IsInt64 (-1)
      ∧ Evaluate (.Operation (.Value "m") (.Value "n") Divide) extremeVariables
          = .returned (minInt, none)
      ∧ Evaluate (.Operation (.Value "m") (.Value "n") Plus) extremeVariables
          = .returned (2 ^ 63 - 1, none)
      ∧ ∃ s, Evaluate (.Operation (.Value "m") (.Value "n") Plus) extremeVariables
            = .returned (s, none)
          ∧ IsInt64 s ∧ ∃ k : Int, s = minInt + -1 + k * 2 ^ 64) :=
  ⟨⟨by decide, by decide, by decide, by decide, by decide, by decide,
    (Evaluate_arith (.Value "p") (.Value "q") extremeVariables (-5) 2
      (by decide) (by decide) (by decide) (by decide)).1 (by decide)⟩,
   ⟨by decide, by decide, by decide, by decide, by decide, by decide,
    (Evaluate_arith (.Value "m") (.Value "n") extremeVariables minInt (-1)
      (by decide) (by decide) (by decide) (by decide)).2.1⟩⟩

end Handout01
